import Mathlib

/-!
StreamNetgstat: the generic factory (`src/Factory.hpp`)

A shallow embedding of `generic_factory::Factory<AbstractProduct, Identifier, Builder>`.

* `std::map<Identifier, Builder>` is embedded as a list of key/value pairs kept in
  strictly ascending key order.  Its member functions `find`, `insert` and `erase`
  walk the list using only the key comparison `<`, as the library container does.
  The functions do not require their input to be ordered; `StdMap.Ordered` is the
  container invariant and separate lemmas show that it is preserved.
* `std::unique_ptr<T>` is embedded as `Option T`, `none` being the null pointer.
* A thrown exception is an `Except.error`; `create`, `add` and `unregister` return
  their outcome together with the factory state after the call, so that the state
  after a throwing call can be talked about.  The member `registered` only reads
  the container and returns the vector it built.
* The default `Builder`, `std::function<std::unique_ptr<AbstractProduct> ()>`, is
  a total function from `Unit`: a builder neither throws nor touches the factory.
* `Identifier` is any linearly ordered type; the `operator+` that puts the
  identifier into the message of `create` is `toString`, the identity on `String`.
-/

namespace generic_factory

/-- The C++ owning pointer `std::unique_ptr<T>`; `none` is the null pointer. -/
abbrev unique_ptr (T : Type) : Type := Option T

/-- The exceptions thrown by the factory: `std::invalid_argument` with its message. -/
inductive Exception where
  | invalid_argument (what : String)
  deriving DecidableEq, Repr

/-- The default builder type `std::function<std::unique_ptr<AbstractProduct> ()>`. -/
abbrev Builder (AbstractProduct : Type) : Type := Unit → unique_ptr AbstractProduct

/-! ## The container `std::map` -/

namespace StdMap

variable {K V : Type}

/-- The container invariant of `std::map`: keys strictly ascending. -/
def Ordered [LT K] (m : List (K × V)) : Prop :=
  m.Pairwise (fun a b => a.1 < b.1)

/-- The member `std::map::find(key)`: the entry whose key is equivalent to `key`
(neither is less than the other), or `none` for the past-the-end iterator. -/
def find [LT K] [DecidableRel (fun (a b : K) => a < b)] :
    List (K × V) → K → Option (K × V)
  | [], _ => none
  | e :: rest, key =>
    if e.1 < key then find rest key
    else if key < e.1 then none
    else some e

/-- The member `std::map::insert(value)`: the entry is put at its ordered position
and the flag is `true`, unless an entry with an equivalent key is present, in which
case the container is left as it is and the flag is `false`. -/
def insert [LT K] [DecidableRel (fun (a b : K) => a < b)] :
    List (K × V) → K × V → List (K × V) × Bool
  | [], value => ([value], true)
  | e :: rest, value =>
    if e.1 < value.1 then ((e :: (insert rest value).1), (insert rest value).2)
    else if value.1 < e.1 then (value :: e :: rest, true)
    else (e :: rest, false)

/-- The member `std::map::erase(key)`: removes the entry with an equivalent key,
if there is one. -/
def erase [LT K] [DecidableRel (fun (a b : K) => a < b)] :
    List (K × V) → K → List (K × V)
  | [], _ => []
  | e :: rest, key =>
    if e.1 < key then e :: erase rest key
    else if key < e.1 then e :: rest
    else rest

end StdMap

/-! ## The factory -/

/-- The class `Factory`: its only data member is the container `_storage`. -/
structure Factory (AbstractProduct Identifier : Type) where
  _storage : List (Identifier × Builder AbstractProduct)

namespace Factory

variable {AbstractProduct Identifier : Type}

/-- The static local `theFactory` of `Instance()` as first constructed by
`Factory() = default`: the container is empty. -/
def theFactory : Factory AbstractProduct Identifier := { _storage := [] }

section methods

variable [LinearOrder Identifier]

/-- The method `Factory::create`: looks `name` up; throws `std::invalid_argument`
with the message naming the identifier when it is absent, otherwise calls the
stored builder and returns what it built.  The method is `const`. -/
def create [ToString Identifier] (self : Factory AbstractProduct Identifier)
    (name : Identifier) :
    Except Exception (unique_ptr AbstractProduct) × Factory AbstractProduct Identifier :=
  match StdMap.find self._storage name with
  | none =>
    let out := "Identifier " ++ toString name ++ " is not stored in the factory"
    (Except.error (Exception.invalid_argument out), self)
  | some f => (Except.ok (f.2 ()), self)

/-- The method `Factory::add`: inserts the pair and throws `std::invalid_argument`
when the insertion reports that nothing was inserted. -/
def add (self : Factory AbstractProduct Identifier) (name : Identifier)
    (func : Builder AbstractProduct) :
    Except Exception Unit × Factory AbstractProduct Identifier :=
  let f := StdMap.insert self._storage (name, func)
  if f.2 = false then
    (Except.error (Exception.invalid_argument "Double registration in Factory"),
      { _storage := f.1 })
  else (Except.ok (), { _storage := f.1 })

/-- The method `Factory::registered`: pushes the key of every entry, in iteration
order, onto an initially empty vector. -/
def registered (self : Factory AbstractProduct Identifier) : List Identifier :=
  self._storage.foldl (fun tmp i => tmp ++ [i.1]) []

/-- The method `Factory::unregister`: erases the entry of `name`; it has no
`throw`. -/
def unregister (self : Factory AbstractProduct Identifier) (name : Identifier) :
    Except Exception Unit × Factory AbstractProduct Identifier :=
  (Except.ok (), { _storage := StdMap.erase self._storage name })

end methods

/-- The state invariant of a factory: its container satisfies the `std::map`
invariant. -/
def WF [LT Identifier] (self : Factory AbstractProduct Identifier) : Prop :=
  StdMap.Ordered self._storage

/-- The exception `create` throws on `name`, called UnknownIdentifier below. -/
def UnknownIdentifier [ToString Identifier] (name : Identifier) : Exception :=
  Exception.invalid_argument
    ("Identifier " ++ toString name ++ " is not stored in the factory")

/-- The exception `add` throws, called DuplicateRegistration below. -/
def DuplicateRegistration : Exception :=
  Exception.invalid_argument "Double registration in Factory"

/-! ### Sequences of calls -/

/-- Calls `add` on every pair of the list in turn and collects the outcome of each
call together with the final state. -/
def addAll [LinearOrder Identifier] :
    Factory AbstractProduct Identifier → List (Identifier × Builder AbstractProduct) →
      List (Except Exception Unit) × Factory AbstractProduct Identifier
  | self, [] => ([], self)
  | self, p :: ps =>
    ((self.add p.1 p.2).1 :: (addAll (self.add p.1 p.2).2 ps).1,
      (addAll (self.add p.1 p.2).2 ps).2)

end Factory

/-! ### Builders with an effect -/

/-- A `Builder` whose call has an effect on the state `World` of the program outside
the factory, the free store among it: a call returns the pointer it built and the
state after the call.  `Instance` is the type of the object identities a pointer
can hold. -/
abbrev EffectBuilder (World Instance : Type) : Type :=
  World → unique_ptr Instance × World

/-- The method `Factory::create` on the container `_storage` of a factory whose
template argument `Builder` is such a callable: the call `f->second()` is made in
the state `w` and leaves the state the builder left; when it throws, no builder was
called. -/
def createIn {World Instance Identifier : Type} [LinearOrder Identifier]
    [ToString Identifier] (_storage : List (Identifier × EffectBuilder World Instance))
    (name : Identifier) (w : World) :
    Except Exception (unique_ptr Instance) × World :=
  match StdMap.find _storage name with
  | none =>
    let out := "Identifier " ++ toString name ++ " is not stored in the factory"
    (Except.error (Exception.invalid_argument out), w)
  | some f => (Except.ok (f.2 w).1, (f.2 w).2)

end generic_factory

/-! ## The class `Points` (`src/Points.hpp`) -/

/-- The class `Points` with its five data members.  The types `Point` and the scalar
of `Eigen::MatrixXd` are parameters, a dynamic Eigen matrix is the list of its rows,
and the `unsigned int` member `n`, on which the class does no arithmetic, is a
natural number. -/
structure Points (Point Scalar : Type) where
  points : List Point
  n : Nat
  flowMat : List (List Int)
  distHydro : List (List Scalar)
  distGeo : List (List Scalar)

namespace Points

variable {Point Scalar : Type}

/-- The constructor `Points() = default`.  Every member is default-initialised: the
vector and the three matrices are empty, and `n`, which has no initialiser, is left
with the value `indeterminate` that its storage happened to hold. -/
def defaulted (indeterminate : Nat) : Points Point Scalar :=
  { points := [], n := indeterminate, flowMat := [], distHydro := [], distGeo := [] }

/-- The accessor `getN`. -/
def getN (self : Points Point Scalar) : Nat := self.n

/-- The accessor `getFlowMat`. -/
def getFlowMat (self : Points Point Scalar) : List (List Int) := self.flowMat

/-- The accessor `getDistHydro`. -/
def getDistHydro (self : Points Point Scalar) : List (List Scalar) := self.distHydro

/-- The accessor `getDistGeo`. -/
def getDistGeo (self : Points Point Scalar) : List (List Scalar) := self.distGeo

/-- The accessor `getPoints`. -/
def getPoints (self : Points Point Scalar) : List Point := self.points

/-- Modelled from the spec: the body of `Points::setPoints`, which the header only
declares.  The spec has it replace the owned point sequence and update `n` to the
length of the new sequence, and leave the three matrices as they are. -/
def setPoints (self : Points Point Scalar) (p : List Point) : Points Point Scalar :=
  { self with points := p, n := p.length }

end Points

namespace generic_factory

/-! ## Sample data -/

namespace Sample

/-- A builder of the constant product `1`. -/
def one : Builder Nat := fun _ => some 1

/-- A builder of the constant product `2`. -/
def two : Builder Nat := fun _ => some 2

/-- A factory with the identifiers `"a"` and `"c"` registered. -/
def ac : Factory Nat String := { _storage := [("a", one), ("c", two)] }

end Sample

/-! ## Lemmas on the container -/

namespace StdMap

variable {K V : Type} [LinearOrder K]

theorem ordered_nil : Ordered ([] : List (K × V)) := List.Pairwise.nil

theorem ordered_cons {e : K × V} {m : List (K × V)} :
    Ordered (e :: m) ↔ (∀ x ∈ m, e.1 < x.1) ∧ Ordered m := by
  unfold Ordered
  exact List.pairwise_cons

/-- An entry returned by `find` is an entry of the container with the key asked for. -/
theorem find_some {m : List (K × V)} {key : K} {e : K × V}
    (h : find m key = some e) : e ∈ m ∧ e.1 = key := by
  induction m with
  | nil => simp [find] at h
  | cons x rest ih =>
    unfold find at h
    split_ifs at h with h1 h2
    · exact ⟨List.mem_cons_of_mem _ (ih h).1, (ih h).2⟩
    · simp only [Option.some.injEq] at h
      subst h
      exact ⟨List.mem_cons_self _ _, le_antisymm (not_lt.mp h2) (not_lt.mp h1)⟩

/-- In an ordered container `find` returns every entry under its own key. -/
theorem find_of_mem {m : List (K × V)} (hm : Ordered m) {e : K × V} (he : e ∈ m) :
    find m e.1 = some e := by
  induction m with
  | nil => simp at he
  | cons x rest ih =>
    obtain ⟨hx, hrest⟩ := ordered_cons.mp hm
    unfold find
    rcases List.mem_cons.mp he with rfl | he
    · simp
    · have hlt := hx e he
      rw [if_pos hlt]
      exact ih hrest he

/-- The member `find` misses exactly the keys that are not in the container. -/
theorem find_eq_none_iff {m : List (K × V)} (hm : Ordered m) (key : K) :
    find m key = none ↔ key ∉ m.map Prod.fst := by
  constructor
  · intro h hk
    obtain ⟨e, he, rfl⟩ := List.mem_map.mp hk
    rw [find_of_mem hm he] at h
    exact Option.noConfusion h
  · intro h
    cases hf : find m key with
    | none => rfl
    | some e =>
      exact absurd (List.mem_map.mpr ⟨e, (find_some hf).1, (find_some hf).2⟩) h

/-- An ordered container holds at most one entry per key. -/
theorem entry_unique {m : List (K × V)} (hm : Ordered m) {e1 e2 : K × V}
    (h1 : e1 ∈ m) (h2 : e2 ∈ m) (hk : e1.1 = e2.1) : e1 = e2 := by
  have a := find_of_mem hm h1
  have b := find_of_mem hm h2
  rw [hk, b] at a
  exact (Option.some.inj a).symm

/-- A refused insertion leaves the container as it was. -/
theorem insert_fst_of_refused {m : List (K × V)} {value : K × V}
    (h : (insert m value).2 = false) : (insert m value).1 = m := by
  induction m with
  | nil => simp [insert] at h
  | cons x rest ih =>
    unfold insert at h ⊢
    split_ifs at h ⊢ with h1 h2
    · simp only at h ⊢
      rw [ih h]
    · rfl

/-- In an ordered container an insertion is refused exactly when the key is present. -/
theorem insert_refused_iff {m : List (K × V)} (hm : Ordered m) (value : K × V) :
    (insert m value).2 = false ↔ value.1 ∈ m.map Prod.fst := by
  induction m with
  | nil => simp [insert]
  | cons x rest ih =>
    obtain ⟨hx, hrest⟩ := ordered_cons.mp hm
    unfold insert
    split_ifs with h1 h2
    · simp only [List.map_cons, List.mem_cons]
      rw [ih hrest]
      constructor
      · exact Or.inr
      · rintro (h | h)
        · exact absurd h (ne_of_gt h1)
        · exact h
    · simp only [List.map_cons, List.mem_cons, Bool.true_eq_false, false_iff, not_or]
      refine ⟨ne_of_lt h2, ?_⟩
      intro hk
      obtain ⟨e, he, hek⟩ := List.mem_map.mp hk
      have := hx e he
      rw [hek] at this
      exact lt_asymm h2 this
    · simp only [List.map_cons, List.mem_cons, true_iff]
      exact Or.inl (le_antisymm (not_lt.mp h1) (not_lt.mp h2))

/-- An accepted insertion adds the new entry and nothing else. -/
theorem insert_perm {m : List (K × V)} {value : K × V}
    (h : (insert m value).2 = true) : ((insert m value).1).Perm (value :: m) := by
  induction m with
  | nil => simp [insert]
  | cons x rest ih =>
    unfold insert at h ⊢
    split_ifs at h ⊢ with h1 h2
    · simp only at h ⊢
      exact ((ih h).cons x).trans (List.Perm.swap value x rest)
    · exact List.Perm.refl _

/-- The member `insert` preserves the container invariant. -/
theorem insert_ordered {m : List (K × V)} (hm : Ordered m) (value : K × V) :
    Ordered (insert m value).1 := by
  induction m with
  | nil => simp [insert, Ordered]
  | cons x rest ih =>
    obtain ⟨hx, hrest⟩ := ordered_cons.mp hm
    unfold insert
    split_ifs with h1 h2
    · simp only
      refine ordered_cons.mpr ⟨?_, ih hrest⟩
      intro y hy
      cases hb : (insert rest value).2 with
      | false =>
        rw [insert_fst_of_refused hb] at hy
        exact hx y hy
      | true =>
        rcases List.mem_cons.mp ((insert_perm hb).mem_iff.mp hy) with rfl | hy
        · exact h1
        · exact hx y hy
    · simp only
      refine ordered_cons.mpr ⟨?_, hm⟩
      intro y hy
      rcases List.mem_cons.mp hy with rfl | hy
      · exact h2
      · exact lt_trans h2 (hx y hy)
    · exact hm

/-- In an ordered container `erase` removes exactly the entries with the given key,
keeping the others in their order. -/
theorem erase_eq_filter {m : List (K × V)} (hm : Ordered m) (key : K) :
    erase m key = m.filter (fun e => decide (e.1 ≠ key)) := by
  induction m with
  | nil => rfl
  | cons x rest ih =>
    obtain ⟨hx, hrest⟩ := ordered_cons.mp hm
    have hkeep : key ≤ x.1 → rest.filter (fun e => decide (e.1 ≠ key)) = rest := by
      intro hle
      apply List.filter_eq_self.mpr
      intro y hy
      exact decide_eq_true (ne_of_gt (lt_of_le_of_lt hle (hx y hy)))
    unfold erase
    split_ifs with h1 h2
    · rw [ih hrest, List.filter_cons, if_pos (decide_eq_true (ne_of_lt h1))]
    · rw [List.filter_cons, if_pos (decide_eq_true (ne_of_gt h2)), hkeep (le_of_lt h2)]
    · have heq : x.1 = key := le_antisymm (not_lt.mp h2) (not_lt.mp h1)
      rw [List.filter_cons, if_neg (by simp [heq]), hkeep (not_lt.mp h1)]

/-- Erasing a key that is not in the container changes nothing. -/
theorem erase_of_not_mem {m : List (K × V)} {key : K}
    (h : key ∉ m.map Prod.fst) : erase m key = m := by
  induction m with
  | nil => rfl
  | cons x rest ih =>
    simp only [List.map_cons, List.mem_cons, not_or] at h
    unfold erase
    split_ifs with h1 h2
    · rw [ih h.2]
    · rfl
    · exact absurd (le_antisymm (not_lt.mp h1) (not_lt.mp h2)) h.1

/-- The member `erase` preserves the container invariant. -/
theorem erase_ordered {m : List (K × V)} (hm : Ordered m) (key : K) :
    Ordered (erase m key) := by
  rw [erase_eq_filter hm]
  exact List.Pairwise.filter _ hm

/-- The member `find` gives the same answer on two ordered containers that hold the
same entries under the key asked for. -/
theorem find_congr {m m2 : List (K × V)} (hm : Ordered m) (hm2 : Ordered m2) (key : K)
    (h : ∀ e : K × V, e.1 = key → (e ∈ m ↔ e ∈ m2)) : find m key = find m2 key := by
  cases hf : find m key with
  | none =>
    have hno := (find_eq_none_iff hm key).mp hf
    symm
    apply (find_eq_none_iff hm2 key).mpr
    intro hk
    obtain ⟨e, he, hek⟩ := List.mem_map.mp hk
    exact hno (List.mem_map.mpr ⟨e, (h e hek).mpr he, hek⟩)
  | some e =>
    obtain ⟨he, hek⟩ := find_some hf
    have hfound := find_of_mem hm2 ((h e hek).mp he)
    rw [hek] at hfound
    exact hfound.symm

/-- An accepted insertion puts the entry between the entries with smaller keys and
the entries with greater keys, which keep their places. -/
theorem insert_split {m : List (K × V)} (hm : Ordered m) {value : K × V}
    (h : (insert m value).2 = true) :
    ∃ l1 l2, m = l1 ++ l2 ∧ (insert m value).1 = l1 ++ value :: l2 ∧
      (∀ e ∈ l1, e.1 < value.1) ∧ (∀ e ∈ l2, value.1 < e.1) := by
  induction m with
  | nil => exact ⟨[], [], rfl, rfl, by simp, by simp⟩
  | cons x rest ih =>
    obtain ⟨hx, hrest⟩ := ordered_cons.mp hm
    unfold insert at h ⊢
    split_ifs at h ⊢ with h1 h2
    · simp only at h ⊢
      obtain ⟨l1, l2, hsplit, hins, hl1, hl2⟩ := ih hrest h
      refine ⟨x :: l1, l2, by rw [hsplit]; rfl, by rw [hins]; rfl, ?_, hl2⟩
      intro e he
      rcases List.mem_cons.mp he with rfl | he
      · exact h1
      · exact hl1 e he
    · refine ⟨[], x :: rest, rfl, rfl, by simp, ?_⟩
      intro e he
      rcases List.mem_cons.mp he with rfl | he
      · exact h2
      · exact lt_trans h2 (hx e he)

/-- Erasing the key of an entry that was just inserted gives the container back. -/
theorem erase_insert {m : List (K × V)} {value : K × V}
    (h : (insert m value).2 = true) : erase (insert m value).1 value.1 = m := by
  induction m with
  | nil => simp [insert, erase]
  | cons x rest ih =>
    unfold insert at h ⊢
    split_ifs at h ⊢ with h1 h2
    · simp only at h ⊢
      unfold erase
      rw [if_pos h1, ih h]
    · simp only
      unfold erase
      rw [if_neg (lt_irrefl _), if_neg (lt_irrefl _)]

/-- The entries of an ordered container after `erase`. -/
theorem mem_erase {m : List (K × V)} (hm : Ordered m) (key : K) (e : K × V) :
    e ∈ erase m key ↔ e ∈ m ∧ e.1 ≠ key := by
  rw [erase_eq_filter hm]
  simp [List.mem_filter]

end StdMap

/-! ## Lemmas on the methods -/

namespace Factory

variable {AbstractProduct Identifier : Type}

/-- The list `registered()` returns is the list of the keys in iteration order. -/
theorem registered_eq_keys (s : Factory AbstractProduct Identifier) :
    s.registered = s._storage.map Prod.fst := by
  unfold registered
  have key : ∀ (m : List (Identifier × Builder AbstractProduct)) (acc : List Identifier),
      m.foldl (fun tmp i => tmp ++ [i.1]) acc = acc ++ m.map Prod.fst := by
    intro m
    induction m with
    | nil => intro acc; simp
    | cons x rest ih => intro acc; simp [ih]
  simpa using key s._storage []

/-- The identifier of an entry is registered. -/
theorem mem_of_entry {s : Factory AbstractProduct Identifier} {id : Identifier}
    {b : Builder AbstractProduct} (h : (id, b) ∈ s._storage) : id ∈ s.registered := by
  rw [registered_eq_keys]
  exact List.mem_map.mpr ⟨(id, b), h, rfl⟩

variable [LinearOrder Identifier]

theorem wf_theFactory : (theFactory : Factory AbstractProduct Identifier).WF :=
  StdMap.ordered_nil

theorem wf_add {s : Factory AbstractProduct Identifier} (hs : s.WF) (id : Identifier)
    (b : Builder AbstractProduct) : (s.add id b).2.WF := by
  simp only [add, WF]
  split_ifs <;> exact StdMap.insert_ordered hs (id, b)

theorem wf_unregister {s : Factory AbstractProduct Identifier} (hs : s.WF)
    (id : Identifier) : (s.unregister id).2.WF :=
  StdMap.erase_ordered hs id

/-- The outcome of `add` is decided by the flag of the insertion. -/
theorem add_fst (s : Factory AbstractProduct Identifier) (id : Identifier)
    (b : Builder AbstractProduct) :
    (s.add id b).1 =
      if (StdMap.insert s._storage (id, b)).2 = false
      then Except.error DuplicateRegistration else Except.ok () := by
  simp only [add, DuplicateRegistration]
  split_ifs <;> rfl

/-- The container after `add` is the container the insertion produced. -/
theorem add_snd (s : Factory AbstractProduct Identifier) (id : Identifier)
    (b : Builder AbstractProduct) :
    (s.add id b).2._storage = (StdMap.insert s._storage (id, b)).1 := by
  simp only [add]
  split_ifs <;> rfl

/-- The identifiers registered after `add`. -/
theorem mem_registered_add {s : Factory AbstractProduct Identifier} (hs : s.WF)
    (id : Identifier) (b : Builder AbstractProduct) (j : Identifier) :
    j ∈ (s.add id b).2.registered ↔ j = id ∨ j ∈ s.registered := by
  rw [registered_eq_keys, registered_eq_keys, add_snd]
  cases hb : (StdMap.insert s._storage (id, b)).2 with
  | false =>
    rw [StdMap.insert_fst_of_refused hb]
    have hid := (StdMap.insert_refused_iff hs (id, b)).mp hb
    constructor
    · exact Or.inr
    · rintro (rfl | h)
      · exact hid
      · exact h
  | true =>
    rw [((StdMap.insert_perm hb).map Prod.fst).mem_iff]
    simp

/-- The identifiers registered after `unregister`. -/
theorem mem_registered_unregister {s : Factory AbstractProduct Identifier} (hs : s.WF)
    (id j : Identifier) :
    j ∈ (s.unregister id).2.registered ↔ j ≠ id ∧ j ∈ s.registered := by
  rw [registered_eq_keys, registered_eq_keys]
  unfold unregister
  rw [StdMap.erase_eq_filter hs]
  simp only [List.mem_map, List.mem_filter, decide_eq_true_eq]
  constructor
  · rintro ⟨e, ⟨he, hne⟩, rfl⟩
    exact ⟨hne, e, he, rfl⟩
  · rintro ⟨hne, e, he, rfl⟩
    exact ⟨e, ⟨he, hne⟩, rfl⟩

/-- The outcome of `create` on an identifier that is not registered. -/
theorem create_of_not_mem [ToString Identifier] {s : Factory AbstractProduct Identifier}
    (hs : s.WF) {id : Identifier} (h : id ∉ s.registered) :
    (s.create id).1 = Except.error (UnknownIdentifier id) := by
  unfold create
  rw [registered_eq_keys] at h
  rw [(StdMap.find_eq_none_iff hs id).mpr h]
  rfl

/-- The list `registered()` returns is strictly ascending whenever the state
invariant holds. -/
theorem registered_sorted {s : Factory AbstractProduct Identifier} (hs : s.WF) :
    s.registered.Sorted (fun a b => a < b) := by
  rw [registered_eq_keys]
  exact List.pairwise_map.mpr hs

/-- Adding an identifier that is not registered succeeds and registers it. -/
theorem add_of_not_mem {s : Factory AbstractProduct Identifier} (hs : s.WF)
    {id : Identifier} (h : id ∉ s.registered) (b : Builder AbstractProduct) :
    (s.add id b).1 = Except.ok () ∧
      ((s.add id b).2.registered).Perm (id :: s.registered) := by
  have htrue : (StdMap.insert s._storage (id, b)).2 = true := by
    cases hb : (StdMap.insert s._storage (id, b)).2 with
    | false =>
      rw [registered_eq_keys] at h
      exact absurd ((StdMap.insert_refused_iff hs (id, b)).mp hb) h
    | true => rfl
  constructor
  · rw [add_fst, if_neg (by simp [htrue])]
  · rw [registered_eq_keys, registered_eq_keys, add_snd]
    exact (StdMap.insert_perm htrue).map Prod.fst

/-- Adding pairs with distinct identifiers, none of them registered yet: every call
succeeds and the identifiers are added to the registered ones. -/
theorem addAll_of_fresh {s : Factory AbstractProduct Identifier} (hs : s.WF)
    (l : List (Identifier × Builder AbstractProduct))
    (hl : (l.map Prod.fst).Nodup) (hfresh : ∀ p ∈ l, p.1 ∉ s.registered) :
    (∀ r ∈ (s.addAll l).1, r = Except.ok ()) ∧
      (s.addAll l).1.length = l.length ∧
      (s.addAll l).2.WF ∧
      ((s.addAll l).2.registered).Perm (l.map Prod.fst ++ s.registered) := by
  induction l generalizing s with
  | nil => simp [addAll, hs]
  | cons p ps ih =>
    obtain ⟨hp, hps⟩ := List.nodup_cons.mp hl
    have hpfresh : p.1 ∉ s.registered := hfresh p (List.mem_cons_self _ _)
    obtain ⟨hok, hperm⟩ := add_of_not_mem hs hpfresh p.2
    have hfresh2 : ∀ q ∈ ps, q.1 ∉ (s.add p.1 p.2).2.registered := by
      intro q hq hmem
      rcases (mem_registered_add hs p.1 p.2 q.1).mp hmem with heq | hmem
      · exact hp (heq ▸ List.mem_map.mpr ⟨q, hq, rfl⟩)
      · exact hfresh q (List.mem_cons_of_mem _ hq) hmem
    obtain ⟨h1, h2, h3, h4⟩ := ih (wf_add hs p.1 p.2) hps hfresh2
    refine ⟨?_, ?_, h3, ?_⟩
    · intro r hr
      rcases List.mem_cons.mp hr with rfl | hr
      · exact hok
      · exact h1 r hr
    · simp [addAll, h2]
    · exact (h4.trans (List.Perm.append_left _ hperm)).trans List.perm_middle

/-- The insertion made by `add` is accepted when the identifier is not registered. -/
theorem insert_accepted {s : Factory AbstractProduct Identifier} (hs : s.WF)
    {id : Identifier} (h : id ∉ s.registered) (b : Builder AbstractProduct) :
    (StdMap.insert s._storage (id, b)).2 = true := by
  cases hb : (StdMap.insert s._storage (id, b)).2 with
  | false =>
    rw [registered_eq_keys] at h
    exact absurd ((StdMap.insert_refused_iff hs (id, b)).mp hb) h
  | true => rfl

/-- The entries after a successful `add`. -/
theorem mem_storage_add {s : Factory AbstractProduct Identifier} (hs : s.WF)
    {id : Identifier} (h : id ∉ s.registered) (b : Builder AbstractProduct)
    (e : Identifier × Builder AbstractProduct) :
    e ∈ (s.add id b).2._storage ↔ e = (id, b) ∨ e ∈ s._storage := by
  rw [add_snd, (StdMap.insert_perm (insert_accepted hs h b)).mem_iff]
  exact List.mem_cons

/-- The entries after `unregister`. -/
theorem mem_storage_unregister {s : Factory AbstractProduct Identifier} (hs : s.WF)
    (id : Identifier) (e : Identifier × Builder AbstractProduct) :
    e ∈ (s.unregister id).2._storage ↔ e ∈ s._storage ∧ e.1 ≠ id :=
  StdMap.mem_erase hs id e

/-- The outcome of `create` depends on the factory only through what `find`
returns. -/
theorem create_fst_congr [ToString Identifier]
    {s t : Factory AbstractProduct Identifier} {j : Identifier}
    (h : StdMap.find s._storage j = StdMap.find t._storage j) :
    (s.create j).1 = (t.create j).1 := by
  unfold create
  rw [h]
  cases StdMap.find t._storage j <;> rfl

end Factory

namespace Sample

/-- The sample factory satisfies the state invariant. -/
theorem wf_ac : ac.WF := by
  simp [Factory.WF, StdMap.Ordered, ac, String.lt_iff_toList_lt]
  decide

theorem a_lt_b : ("a" : String) < "b" := by
  rw [String.lt_iff_toList_lt]
  decide

theorem b_lt_c : ("b" : String) < "c" := by
  rw [String.lt_iff_toList_lt]
  decide

end Sample

/-! ## The contract of `add` and `create` -/

open Factory

section contract

variable {AbstractProduct Identifier : Type} [LinearOrder Identifier]

/-- C1: in every factory state, `add(id, b)` throws `std::invalid_argument` with the
message "Double registration in Factory" exactly when `id` is already registered;
when `id` is not registered the call succeeds for every builder `b`, and afterwards
`id` is registered and `b` is the one builder stored under it. -/
theorem add_throws_iff_registered (s : Factory AbstractProduct Identifier) (hs : s.WF)
    (id : Identifier) (b : Builder AbstractProduct) :
    ((s.add id b).1 =
        Except.error (Exception.invalid_argument "Double registration in Factory")
      ↔ id ∈ s.registered) ∧
    (id ∉ s.registered →
      (s.add id b).1 = Except.ok () ∧
      id ∈ (s.add id b).2.registered ∧
      (id, b) ∈ (s.add id b).2._storage ∧
      ∀ b', (id, b') ∈ (s.add id b).2._storage → b' = b) := by
  have hflag := StdMap.insert_refused_iff hs (id, b)
  rw [← registered_eq_keys] at hflag
  refine ⟨?_, ?_⟩
  · rw [add_fst, ← hflag]
    split_ifs with h
    · exact ⟨fun _ => h, fun _ => rfl⟩
    · constructor
      · intro h'
        exact False.elim h'
      · intro h'
        exact absurd h' h
  · intro hn
    have htrue : (StdMap.insert s._storage (id, b)).2 = true := by
      cases hb : (StdMap.insert s._storage (id, b)).2 with
      | false => exact absurd (hflag.mp hb) hn
      | true => rfl
    have hmem : (id, b) ∈ (s.add id b).2._storage := by
      rw [add_snd]
      exact (StdMap.insert_perm htrue).mem_iff.mpr (List.mem_cons_self _ _)
    refine ⟨?_, mem_of_entry hmem, hmem, ?_⟩
    · rw [add_fst, if_neg (by simp [htrue])]
    · intro b' hb'
      have := StdMap.entry_unique (wf_add hs id b) hb' hmem rfl
      exact congrArg Prod.snd this

/-- Witness of C1 on the sample factory: `"b"` is not registered, so adding it
succeeds. -/
theorem add_throws_iff_registered_witness :
    Sample.ac.WF ∧ "b" ∉ Sample.ac.registered ∧
      (Sample.ac.add "b" Sample.one).1 = Except.ok () :=
  have hb : "b" ∉ Sample.ac.registered := by simp [Factory.registered, Sample.ac]
  ⟨Sample.wf_ac, hb,
    ((add_throws_iff_registered Sample.ac Sample.wf_ac "b" Sample.one).2 hb).1⟩

/-- C4: the comment on the declaration of `create` says that the pointer is null if
no rule is present under the name.  On the sample factory, in which `"b"` is not
registered, `create("b")` does not return the null pointer: it throws
`std::invalid_argument` with the message "Identifier b is not stored in the
factory". -/
theorem create_absent_throws_not_null :
    "b" ∉ Sample.ac.registered ∧
    (Sample.ac.create "b").1 ≠ Except.ok none ∧
    (Sample.ac.create "b").1 =
      Except.error
        (Exception.invalid_argument "Identifier b is not stored in the factory") := by
  have hthrow : (Sample.ac.create "b").1 =
      Except.error
        (Exception.invalid_argument "Identifier b is not stored in the factory") := by
    have hmsg : "Identifier " ++ toString "b" ++ " is not stored in the factory" =
        "Identifier b is not stored in the factory" := by decide
    simp only [Factory.create, StdMap.find, Sample.ac, if_pos Sample.a_lt_b,
      if_neg (not_lt_of_gt Sample.b_lt_c), if_pos Sample.b_lt_c, hmsg]
  refine ⟨by simp [Factory.registered, Sample.ac], ?_, hthrow⟩
  rw [hthrow]
  exact fun h => Except.noConfusion h

end contract

/-! ## Sequences of calls from the empty factory -/

section sequences

variable {AbstractProduct Identifier : Type} [LinearOrder Identifier]

/-- C6: adding the pairs of a list with pairwise distinct identifiers one after
another to the empty factory succeeds at every step, and afterwards `registered()`
holds exactly the identifiers of the list, each once, so its length is the length of
the list; the result does not depend on the order in which the pairs were added. -/
theorem addAll_distinct_registered (l : List (Identifier × Builder AbstractProduct))
    (hl : (l.map Prod.fst).Nodup) :
    (∀ r ∈ (theFactory.addAll l).1, r = Except.ok ()) ∧
    (theFactory.addAll l).1.length = l.length ∧
    ((theFactory.addAll l).2.registered).Perm (l.map Prod.fst) ∧
    (theFactory.addAll l).2.registered.Nodup ∧
    (theFactory.addAll l).2.registered.length = l.length ∧
    (∀ l2 : List (Identifier × Builder AbstractProduct), l2.Perm l →
      (theFactory.addAll l2).2.registered = (theFactory.addAll l).2.registered) := by
  have hempty : ∀ l0 : List (Identifier × Builder AbstractProduct),
      ∀ p ∈ l0, p.1 ∉ (theFactory : Factory AbstractProduct Identifier).registered := by
    intro l0 p _
    simp [theFactory, registered]
  have hnil : (theFactory : Factory AbstractProduct Identifier).registered = [] := rfl
  obtain ⟨h1, h2, h3, h4⟩ := addAll_of_fresh wf_theFactory l hl (hempty l)
  rw [hnil, List.append_nil] at h4
  refine ⟨h1, h2, h4, h4.nodup_iff.mpr hl, ?_, ?_⟩
  · rw [h4.length_eq, List.length_map]
  · intro l2 hperm
    have hl2 : (l2.map Prod.fst).Nodup := ((hperm.map Prod.fst).nodup_iff).mpr hl
    obtain ⟨_, _, k3, k4⟩ := addAll_of_fresh wf_theFactory l2 hl2 (hempty l2)
    rw [hnil, List.append_nil] at k4
    exact List.eq_of_perm_of_sorted ((k4.trans (hperm.map Prod.fst)).trans h4.symm)
      (registered_sorted k3) (registered_sorted h3)

/-- Witness of C6: adding `"b"` and then `"a"` to the empty factory succeeds at both
steps. -/
theorem addAll_distinct_registered_witness :
    ([("b", Sample.one), ("a", Sample.two)].map Prod.fst).Nodup ∧
      ∀ r ∈ ((theFactory : Factory Nat String).addAll
        [("b", Sample.one), ("a", Sample.two)]).1, r = Except.ok () :=
  have hl : ([("b", Sample.one), ("a", Sample.two)].map Prod.fst).Nodup := by decide
  ⟨hl, (addAll_distinct_registered [("b", Sample.one), ("a", Sample.two)] hl).1⟩

end sequences

/-! ## The contract of `unregister` and the frame of `create` -/

section frame

variable {AbstractProduct Identifier : Type} [LinearOrder Identifier]

/-- C8: `unregister` never throws; when `id` is not registered, `unregister(id)`
leaves the factory exactly as it was; and in every state `unregister(id)` applied
twice gives the same factory as applied once. -/
theorem unregister_noop_idempotent (s : Factory AbstractProduct Identifier)
    (hs : s.WF) (id : Identifier) :
    (s.unregister id).1 = Except.ok () ∧
    (id ∉ s.registered → (s.unregister id).2 = s) ∧
    ((s.unregister id).2.unregister id).1 = Except.ok () ∧
    ((s.unregister id).2.unregister id).2 = (s.unregister id).2 := by
  have hnoop : ∀ t : Factory AbstractProduct Identifier,
      id ∉ t.registered → (t.unregister id).2 = t := by
    intro t ht
    rw [registered_eq_keys] at ht
    cases t with
    | mk m =>
      simp only [unregister]
      rw [StdMap.erase_of_not_mem ht]
  refine ⟨rfl, hnoop s, rfl, hnoop _ ?_⟩
  intro h
  exact ((mem_registered_unregister hs id id).mp h).1 rfl

/-- Witness of C8 on the sample factory: `"b"` is not registered and unregistering
it changes nothing. -/
theorem unregister_noop_idempotent_witness :
    Sample.ac.WF ∧ "b" ∉ Sample.ac.registered ∧
      (Sample.ac.unregister "b").2 = Sample.ac :=
  have hb : "b" ∉ Sample.ac.registered := by simp [Factory.registered, Sample.ac]
  ⟨Sample.wf_ac, hb, (unregister_noop_idempotent Sample.ac Sample.wf_ac "b").2.1 hb⟩

/-- C9: in every state and for every identifier, registered or not, after
`unregister(id)` the call `create(id)` throws the unknown-identifier exception and
`id` does not occur in `registered()`. -/
theorem create_after_unregister_throws [ToString Identifier]
    (s : Factory AbstractProduct Identifier) (hs : s.WF) (id : Identifier) :
    ((s.unregister id).2.create id).1 =
        Except.error (Exception.invalid_argument
          ("Identifier " ++ toString id ++ " is not stored in the factory")) ∧
    id ∉ (s.unregister id).2.registered := by
  have hn : id ∉ (s.unregister id).2.registered := by
    intro h
    exact ((mem_registered_unregister hs id id).mp h).1 rfl
  exact ⟨create_of_not_mem (wf_unregister hs id) hn, hn⟩

/-- Witness of C9 on the sample factory: `"a"` is registered, and after
unregistering it `create` throws. -/
theorem create_after_unregister_throws_witness :
    Sample.ac.WF ∧ "a" ∈ Sample.ac.registered ∧
      ((Sample.ac.unregister "a").2.create "a").1 =
        Except.error (Exception.invalid_argument
          ("Identifier " ++ toString "a" ++ " is not stored in the factory")) :=
  ⟨Sample.wf_ac, by simp [Factory.registered, Sample.ac],
    (create_after_unregister_throws Sample.ac Sample.wf_ac "a").1⟩

end frame

/-! ## The frame of `add` and `unregister` -/

section frame_of_updates

variable {AbstractProduct Identifier : Type} [LinearOrder Identifier]

/-- C14: a successful `add` touches only its own key.  When `id` is not registered,
after `add(id, b)` every other identifier is registered exactly when it was before,
with the same builder, and `create` on it has the same outcome; `registered()` is
the previous list with `id` put at its sorted position, so it is longer by exactly
one. -/
theorem add_touches_only_its_key [ToString Identifier]
    (s : Factory AbstractProduct Identifier) (hs : s.WF) (id : Identifier)
    (b : Builder AbstractProduct) (hid : id ∉ s.registered) :
    (∀ j, j ≠ id →
      (j ∈ (s.add id b).2.registered ↔ j ∈ s.registered) ∧
      (∀ c, (j, c) ∈ (s.add id b).2._storage ↔ (j, c) ∈ s._storage) ∧
      ((s.add id b).2.create j).1 = (s.create j).1) ∧
    (∃ l1 l2, s.registered = l1 ++ l2 ∧
      (s.add id b).2.registered = l1 ++ id :: l2 ∧
      (∀ x ∈ l1, x < id) ∧ (∀ x ∈ l2, id < x)) ∧
    (s.add id b).2.registered.length = s.registered.length + 1 := by
  have hentry : ∀ e : Identifier × Builder AbstractProduct, e.1 ≠ id →
      (e ∈ (s.add id b).2._storage ↔ e ∈ s._storage) := by
    intro e he
    rw [mem_storage_add hs hid b e]
    constructor
    · rintro (rfl | h)
      · exact absurd rfl he
      · exact h
    · exact Or.inr
  refine ⟨?_, ?_, ?_⟩
  · intro j hj
    refine ⟨?_, fun c => hentry (j, c) hj, ?_⟩
    · rw [mem_registered_add hs id b j]
      constructor
      · rintro (h | h)
        · exact absurd h hj
        · exact h
      · exact Or.inr
    · apply create_fst_congr
      apply StdMap.find_congr (wf_add hs id b) hs j
      intro e he
      exact hentry e (he ▸ hj)
  · obtain ⟨l1, l2, hsplit, hins, hl1, hl2⟩ :=
      StdMap.insert_split hs (insert_accepted hs hid b)
    refine ⟨l1.map Prod.fst, l2.map Prod.fst, ?_, ?_, ?_, ?_⟩
    · rw [registered_eq_keys, hsplit, List.map_append]
    · rw [registered_eq_keys, add_snd, hins, List.map_append, List.map_cons]
    · intro x hx
      obtain ⟨e, he, rfl⟩ := List.mem_map.mp hx
      exact hl1 e he
    · intro x hx
      obtain ⟨e, he, rfl⟩ := List.mem_map.mp hx
      exact hl2 e he
  · rw [(add_of_not_mem hs hid b).2.length_eq, List.length_cons]

/-- Witness of C14 on the sample factory: `"b"` is not registered, and after adding
it the list of registered identifiers is longer by one. -/
theorem add_touches_only_its_key_witness :
    Sample.ac.WF ∧ "b" ∉ Sample.ac.registered ∧
      (Sample.ac.add "b" Sample.one).2.registered.length =
        Sample.ac.registered.length + 1 :=
  have hb : "b" ∉ Sample.ac.registered := by simp [Factory.registered, Sample.ac]
  ⟨Sample.wf_ac, hb,
    (add_touches_only_its_key Sample.ac Sample.wf_ac "b" Sample.one hb).2.2⟩

/-- C15: `unregister` touches only its own key.  After `unregister(id)` every other
identifier is registered exactly when it was before, with the same builder, and
`create` on it has the same outcome; `registered()` is the previous list with `id`
removed, the remaining identifiers keeping their relative order. -/
theorem unregister_touches_only_its_key [ToString Identifier]
    (s : Factory AbstractProduct Identifier) (hs : s.WF) (id : Identifier) :
    (∀ j, j ≠ id →
      (j ∈ (s.unregister id).2.registered ↔ j ∈ s.registered) ∧
      (∀ c, (j, c) ∈ (s.unregister id).2._storage ↔ (j, c) ∈ s._storage) ∧
      ((s.unregister id).2.create j).1 = (s.create j).1) ∧
    (s.unregister id).2.registered = s.registered.filter (fun j => decide (j ≠ id)) ∧
    ((s.unregister id).2.registered).Sublist s.registered := by
  have hentry : ∀ e : Identifier × Builder AbstractProduct, e.1 ≠ id →
      (e ∈ (s.unregister id).2._storage ↔ e ∈ s._storage) := by
    intro e he
    rw [mem_storage_unregister hs id e]
    exact ⟨fun h => h.1, fun h => ⟨h, he⟩⟩
  have hfilter : (s.unregister id).2.registered =
      s.registered.filter (fun j => decide (j ≠ id)) := by
    rw [registered_eq_keys, registered_eq_keys]
    simp only [unregister]
    rw [StdMap.erase_eq_filter hs, List.filter_map]
    rfl
  refine ⟨?_, hfilter, ?_⟩
  · intro j hj
    refine ⟨?_, fun c => hentry (j, c) hj, ?_⟩
    · rw [mem_registered_unregister hs id j]
      exact ⟨fun h => h.2, fun h => ⟨hj, h⟩⟩
    · apply create_fst_congr
      apply StdMap.find_congr (wf_unregister hs id) hs j
      intro e he
      exact hentry e (he ▸ hj)
  · rw [hfilter]
    exact List.filter_sublist _

/-- Witness of C15 on the sample factory: after unregistering `"a"` the identifier
`"c"` is registered as it was before, and the list is a sublist of the previous
one. -/
theorem unregister_touches_only_its_key_witness :
    Sample.ac.WF ∧ "c" ≠ "a" ∧
      ("c" ∈ (Sample.ac.unregister "a").2.registered ↔ "c" ∈ Sample.ac.registered) ∧
      ((Sample.ac.unregister "a").2.registered).Sublist Sample.ac.registered :=
  have hca : "c" ≠ "a" := by decide
  ⟨Sample.wf_ac, hca,
    ((unregister_touches_only_its_key Sample.ac Sample.wf_ac "a").1 "c" hca).1,
    (unregister_touches_only_its_key Sample.ac Sample.wf_ac "a").2.2⟩

/-- C16: `unregister` undoes `add`.  When `id` is not registered, `add(id, b)`
followed by `unregister(id)` gives a factory equal to the original one: the same
`registered()` list and the same builder under every identifier. -/
theorem unregister_undoes_add (s : Factory AbstractProduct Identifier) (hs : s.WF)
    (id : Identifier) (b : Builder AbstractProduct) (hid : id ∉ s.registered) :
    (s.add id b).1 = Except.ok () ∧
    ((s.add id b).2.unregister id).1 = Except.ok () ∧
    ((s.add id b).2.unregister id).2 = s ∧
    ((s.add id b).2.unregister id).2.registered = s.registered ∧
    (∀ j c, (j, c) ∈ ((s.add id b).2.unregister id).2._storage ↔ (j, c) ∈ s._storage) := by
  have hstate : ((s.add id b).2.unregister id).2 = s := by
    have hst : ((s.add id b).2.unregister id).2._storage = s._storage := by
      simp only [unregister]
      rw [add_snd]
      exact StdMap.erase_insert (insert_accepted hs hid b)
    cases s
    cases hq : ((Factory.add _ id b).2.unregister id).2
    rw [hq] at hst
    simpa using hst
  refine ⟨(add_of_not_mem hs hid b).1, rfl, hstate, ?_, ?_⟩
  · rw [hstate]
  · intro j c
    rw [hstate]

/-- Witness of C16 on the sample factory: adding `"b"` and unregistering it again
gives the sample factory back. -/
theorem unregister_undoes_add_witness :
    Sample.ac.WF ∧ "b" ∉ Sample.ac.registered ∧
      ((Sample.ac.add "b" Sample.one).2.unregister "b").2 = Sample.ac :=
  have hb : "b" ∉ Sample.ac.registered := by simp [Factory.registered, Sample.ac]
  ⟨Sample.wf_ac, hb,
    (unregister_undoes_add Sample.ac Sample.wf_ac "b" Sample.one hb).2.2.1⟩

end frame_of_updates

/-! ## The instances `create` returns -/

section instances

variable {World Instance AbstractProduct Identifier : Type} [LinearOrder Identifier]

/-- The member `find` commutes with a change of the stored values. -/
theorem StdMap.find_map_values {K V V2 : Type} [LinearOrder K] (g : V → V2)
    (m : List (K × V)) (key : K) :
    StdMap.find (m.map (fun e => (e.1, g e.2))) key =
      (StdMap.find m key).map (fun e => (e.1, g e.2)) := by
  induction m with
  | nil => rfl
  | cons x rest ih =>
    simp only [List.map_cons, StdMap.find]
    split_ifs
    · exact ih
    · rfl
    · rfl

/-- On builders without effect `createIn` is `create`: the outcome is the same and
the state outside the factory is left alone. -/
theorem createIn_pure [ToString Identifier] (s : Factory AbstractProduct Identifier)
    (name : Identifier) (w : World) :
    createIn (s._storage.map (fun e => (e.1, fun (v : World) => (e.2 (), v)))) name w =
      ((s.create name).1, w) := by
  unfold createIn Factory.create
  rw [StdMap.find_map_values (fun (b : Builder AbstractProduct) (v : World) => (b (), v))]
  cases StdMap.find s._storage name <;> rfl

end instances

end generic_factory

/-! ## The point set -/

/-- C12: a `Points` object made by the defaulted default constructor has an empty
point sequence, but its `n` is whatever the storage held: with the value `7` there,
`getPoints()` is empty and `getN()` is `7`, not `0`, so `n` is not the length of
the point sequence. -/
theorem Points.defaulted_n_indeterminate :
    (Points.defaulted 7 : Points Unit Int).getPoints = [] ∧
    (Points.defaulted 7 : Points Unit Int).getN = 7 ∧
    (Points.defaulted 7 : Points Unit Int).getN ≠ 0 ∧
    (Points.defaulted 7 : Points Unit Int).getN ≠
      (Points.defaulted 7 : Points Unit Int).getPoints.length := by
  refine ⟨rfl, rfl, ?_, ?_⟩ <;> decide

/-- C13: for every `Points` object and every point sequence `p`, right after
`setPoints(p)` the accessor `getPoints()` returns `p` and `getN()` returns the
length of `p`; the three matrices are the ones the object had. -/
theorem Points.setPoints_getters {Point Scalar : Type} (self : Points Point Scalar)
    (p : List Point) :
    (self.setPoints p).getPoints = p ∧
    (self.setPoints p).getN = p.length ∧
    (self.setPoints p).getN = (self.setPoints p).getPoints.length ∧
    (self.setPoints p).getFlowMat = self.getFlowMat ∧
    (self.setPoints p).getDistHydro = self.getDistHydro ∧
    (self.setPoints p).getDistGeo = self.getDistGeo :=
  ⟨rfl, rfl, rfl, rfl, rfl, rfl⟩
